import Mathlib

/-!
Verification of the hybrid retrieval / RAG core (`app/core/keyword_search.py`,
`app/core/hybrid_retrieval.py`, `app/core/rag_pipeline.py`).

Shallow embedding conventions:
* Python `dict`s are ordered association lists; insertion of an existing key
  overwrites the value in place (keeping the key's position), insertion of a
  fresh key appends at the end.  This matches CPython dict semantics.
* `float` arithmetic is idealised as real arithmetic (`ℝ`).
* Python's stable `sorted(..., key=..., reverse=True)` is embedded as a stable
  descending insertion sort (`pySortDesc` below).
* Remote capabilities (Qdrant queries, the embedding service, the LLM) are
  abstracted as parameters: the chunk list a retrieval returned, the token
  sequence a streaming generation produced, the generation function itself.
-/

namespace RS

/-- Flat metadata bag attached to a chunk payload (`document_id`, `title`,
`author`, `page`, `section`, `chunk_index`, `tags`). -/
structure Metadata where
  document_id : String
  title : String
  author : String
  page : Int
  sectionLabel : String
  chunk_index : Int
  tags : List String
deriving DecidableEq

/-! ### Ordered association lists: the embedding of Python dicts -/

/-- Python `d[k] = v`: overwrite in place if the key exists, else append. -/
def upsert {α β : Type} [DecidableEq α] (k : α) (v : β) : List (α × β) → List (α × β)
  | [] => [(k, v)]
  | (k', v') :: rest => if k' = k then (k, v) :: rest else (k', v') :: upsert k v rest

/-- Python `d.get(k)`: first (and, for dict-shaped lists, only) binding of `k`. -/
def lookupA {α β : Type} [DecidableEq α] (k : α) : List (α × β) → Option β
  | [] => none
  | (k', v) :: rest => if k' = k then some v else lookupA k rest

/-- Mutation of the value stored under an existing key (`d[k].field = x`). -/
def updateA {α β : Type} [DecidableEq α] (k : α) (f : β → β) : List (α × β) → List (α × β)
  | [] => []
  | (k', v) :: rest => if k' = k then (k', f v) :: rest else (k', v) :: updateA k f rest

/-! ### `BM25Searcher` (`app/core/keyword_search.py`) -/

/-- The character class `[a-zA-Z0-9]` of the tokenizer regex. -/
def isAsciiAlnum (c : Char) : Bool :=
  (decide ('a' ≤ c) && decide (c ≤ 'z')) ||
  (decide ('A' ≤ c) && decide (c ≤ 'Z')) ||
  (decide ('0' ≤ c) && decide (c ≤ '9'))

/-- Model of the word characters recognised by the regex's `\b` anchors
(Python `\w` in Unicode mode): exactly `[a-zA-Z0-9_]` on ASCII.  Python
additionally counts non-ASCII Unicode alphanumerics as word characters; the
embedding classifies every non-ASCII code point as non-word.  That difference
can only keep an alphanumeric run whose flank is a non-ASCII alphanumeric,
where CPython would drop it; no property proved below depends on it, since
they evaluate the tokenizer only on strings without ASCII-alphanumeric runs
or on purely ASCII text. -/
def isPyWordChar (c : Char) : Bool :=
  isAsciiAlnum c || decide (c = '_')

/-- Character-wise model of `str.lower()`, which CPython performs by the
Unicode full case mapping.  The embedding is exact on ASCII and on the only
two code points whose lowercase image contains an ASCII alphanumeric:
U+212A KELVIN SIGN (lowercases to `k`) and U+0130 LATIN CAPITAL LETTER I WITH
DOT ABOVE (lowercases to `i` followed by U+0307 COMBINING DOT ABOVE, the one
multi-character lowercase mapping).  Every other case mapping sends non-ASCII
to non-ASCII, which the tokenizer's character class `[a-zA-Z0-9]` cannot
distinguish from the identity, so those mappings are modeled as the
identity. -/
def pyLower (c : Char) : List Char :=
  if 'A' ≤ c ∧ c ≤ 'Z' then [Char.ofNat (c.toNat + 32)]
  else if c = '\u212A' then ['k']
  else if c = '\u0130' then ['i', '\u0307']
  else [c]

/-- One left-to-right pass of `re.findall(r'\b[a-zA-Z0-9]+\b', ...)`:
`acc` holds the current `[a-zA-Z0-9]+` run (reversed) and `leftOk` records
whether the position where that run began (or, between runs, the position
after the previous character) is a word boundary.  A run is emitted only when
both flanks are boundaries: the left flank per `leftOk`, the right flank per
the non-alphanumeric character that closes the run (which must not be a word
character, i.e. not `_`) or the end of the string. -/
def tokenizeAux (leftOk : Bool) (acc : List Char) : List Char → List (List Char)
  | [] => if leftOk && !acc.isEmpty then [acc.reverse] else []
  | c :: cs =>
    if isAsciiAlnum c then tokenizeAux leftOk (c :: acc) cs
    else
      (if leftOk && !acc.isEmpty && !isPyWordChar c then [acc.reverse] else []) ++
        tokenizeAux (!isPyWordChar c) [] cs

/-- Embedding of `BM25Searcher._tokenize`: lowercase, then take the maximal
alphanumeric runs delimited by word boundaries. -/
def tokenize (s : String) : List String :=
  (tokenizeAux true [] (s.data.flatMap pyLower)).map fun cs => ⟨cs⟩

/-- One `tf[token] += 1` step of a `defaultdict(int)`. -/
def bump (t : String) : List (String × Nat) → List (String × Nat)
  | [] => [(t, 1)]
  | (t', n) :: rest => if t' = t then (t', n + 1) :: rest else (t', n) :: bump t rest

/-- Embedding of `BM25Searcher._compute_term_freq`. -/
def computeTermFreq (tokens : List String) : List (String × Nat) :=
  tokens.foldl (fun tf t => bump t tf) []

/-- One value of `BM25Searcher.documents`. -/
structure DocEntry where
  text : String
  tokens : List String
  term_freq : List (String × Nat)
  length : Nat
  metadata : Metadata
deriving DecidableEq

/-- The mutable state of a `BM25Searcher`. -/
structure BM25State where
  k1 : ℝ
  b : ℝ
  documents : List (String × DocEntry)
  term_doc_freq : List (String × Nat)
  avg_doc_length : ℝ
  total_docs : Nat
  vocab_built : Bool

/-- Embedding of `BM25Searcher.add_document`. -/
def addDocument (S : BM25State) (chunk_id : String) (text : String)
    (metadata : Metadata) : BM25State :=
  let tokens := tokenize text
  let term_freq := computeTermFreq tokens
  { S with
    documents := upsert chunk_id ⟨text, tokens, term_freq, tokens.length, metadata⟩ S.documents
    term_doc_freq := term_freq.foldl (fun m p => bump p.1 m) S.term_doc_freq
    vocab_built := false }

/-- Embedding of `BM25Searcher.build_vocab`: a no-op on an empty corpus. -/
noncomputable def buildVocab (S : BM25State) : BM25State :=
  if S.documents.isEmpty then S
  else
    { S with
      avg_doc_length := ((S.documents.map fun p => p.2.length).sum : ℝ) / (S.documents.length : ℝ)
      total_docs := S.documents.length
      vocab_built := true }

/-- The IDF term of `BM25Searcher._bm25_score`:
`math.log((total_docs - df + 0.5) / (df + 0.5) + 1.0)`. -/
noncomputable def idf (N df : ℕ) : ℝ :=
  Real.log (((N : ℝ) - (df : ℝ) + 0.5) / ((df : ℝ) + 0.5) + 1.0)

/-- The term-frequency component of `BM25Searcher._bm25_score`. -/
noncomputable def tfComponent (k1 b : ℝ) (tf docLength : ℕ) (avgDocLength : ℝ) : ℝ :=
  ((tf : ℝ) * (k1 + 1)) /
    ((tf : ℝ) + k1 * (1 - b + b * ((docLength : ℝ) / avgDocLength)))

/-- Embedding of `BM25Searcher._bm25_score`: query terms absent from the document, or with
document frequency 0, contribute nothing; the rest contribute `idf * tf_component`
to the running sum, with no clamping. -/
noncomputable def bm25Score (S : BM25State) (queryTokens : List String) (doc : DocEntry) : ℝ :=
  queryTokens.foldl
    (fun score term =>
      match lookupA term doc.term_freq with
      | none => score
      | some tf =>
        match lookupA term S.term_doc_freq with
        | none => score
        | some df =>
          if df = 0 then score
          else score + idf S.total_docs df * tfComponent S.k1 S.b tf doc.length S.avg_doc_length)
    0

/-- The `scores` dict of `BM25Searcher.search`: each indexed document in
insertion order, kept iff its score is strictly positive.  The entry carries
the document record alongside the id, standing in for the later
`self.documents[chunk_id]` lookup. -/
noncomputable def scoredDocs (S : BM25State) (queryTokens : List String) :
    List (String × DocEntry × ℝ) :=
  S.documents.filterMap fun p =>
    if 0 < bm25Score S queryTokens p.2 then some (p.1, p.2, bm25Score S queryTokens p.2)
    else none

/-- One insertion step of the stable descending sort: walk past strictly
greater keys, stop at the first key `≤` ours (so an element inserted later in
the fold — i.e. occurring *earlier* in the original list — lands before any
element with an equal key). -/
noncomputable def insertDesc {α : Type} (key : α → ℝ) (a : α) : List α → List α
  | [] => [a]
  | b :: rest => if key a < key b then b :: insertDesc key a rest else a :: b :: rest

/-- Python's stable `sorted(..., key=key, reverse=True)`. -/
noncomputable def pySortDesc {α : Type} (key : α → ℝ) (l : List α) : List α :=
  l.foldr (insertDesc key) []

/-- Result record of one keyword search (`KeywordResult`). -/
structure KeywordResult where
  chunk_id : String
  chunk_text : String
  score : ℝ
  document_id : String
  title : String
  author : String
  page : Int
  sectionLabel : String
  chunk_index : Int
  tags : List String

/-- Assembling a `KeywordResult` from a scored document. -/
def mkKeywordResult (chunk_id : String) (doc : DocEntry) (score : ℝ) : KeywordResult :=
  { chunk_id := chunk_id
    chunk_text := doc.text
    score := score
    document_id := doc.metadata.document_id
    title := doc.metadata.title
    author := doc.metadata.author
    page := doc.metadata.page
    sectionLabel := doc.metadata.sectionLabel
    chunk_index := doc.metadata.chunk_index
    tags := doc.metadata.tags }

/-- Embedding of `BM25Searcher.search`: lazily rebuild the vocabulary, return empty on an
empty corpus or an empty query token list, otherwise score every document,
keep positive scores, sort descending (stable) and truncate to `top_k`. -/
noncomputable def search (S : BM25State) (query : String) (top_k : ℕ) : List KeywordResult :=
  let S' := if S.vocab_built then S else buildVocab S
  if S'.documents.isEmpty then []
  else
    let queryTokens := tokenize query
    if queryTokens.isEmpty then []
    else
      ((pySortDesc (fun p => p.2.2) (scoredDocs S' queryTokens)).take top_k).map
        fun p => mkKeywordResult p.1 p.2.1 p.2.2

/-- Embedding of `BM25Searcher.clear`. -/
def clear (S : BM25State) : BM25State :=
  { S with documents := [], term_doc_freq := [], avg_doc_length := 0,
           total_docs := 0, vocab_built := false }

/-! ### `HybridRetriever` fusion (`app/core/hybrid_retrieval.py`) -/

/-- Embedding of `RetrievalSettings` (`app/core/retrieval_config.py`). -/
structure RetrievalSettings where
  top_k_dense : ℕ
  top_k_keyword : ℕ
  fusion_method : String
  rrf_k : ℝ
  dense_weight : ℝ
  keyword_weight : ℝ
  final_top_k : ℕ
  bm25_k1 : ℝ
  bm25_b : ℝ

/-- A dense search hit (`SearchResult` as `_dense_search` produces it). -/
structure SearchResult where
  chunk_text : String
  score : ℝ
  document_id : String
  title : String
  author : String
  page : Int
  sectionLabel : String
  chunk_index : Int
  tags : List String

/-- Embedding of `FusionResult` of `hybrid_retrieval.py`. -/
structure FusionResult where
  chunk_id : String
  chunk_text : String
  dense_score : ℝ
  keyword_score : ℝ
  fused_score : ℝ
  document_id : String
  title : String
  author : String
  page : Int
  sectionLabel : String
  chunk_index : Int
  tags : List String

/-- The dedup/join key `(document_id, chunk_index)` of a fusion entry. -/
def fkey (r : FusionResult) : String × Int := (r.document_id, r.chunk_index)

/-- The key of a dense result. -/
def dkey (r : SearchResult) : String × Int := (r.document_id, r.chunk_index)

/-- The key of a keyword result. -/
def kkey (r : KeywordResult) : String × Int := (r.document_id, r.chunk_index)

/-- Seeding `all_results` from a dense hit (keyword score 0, fused score 0). -/
def denseEntry (r : SearchResult) : FusionResult :=
  { chunk_id := r.document_id ++ "_" ++ toString r.chunk_index
    chunk_text := r.chunk_text
    dense_score := r.score
    keyword_score := 0
    fused_score := 0
    document_id := r.document_id
    title := r.title
    author := r.author
    page := r.page
    sectionLabel := r.sectionLabel
    chunk_index := r.chunk_index
    tags := r.tags }

/-- Inserting a keyword hit that no dense hit matched (dense score 0). -/
def keywordEntry (r : KeywordResult) : FusionResult :=
  { chunk_id := r.chunk_id
    chunk_text := r.chunk_text
    dense_score := 0
    keyword_score := r.score
    fused_score := 0
    document_id := r.document_id
    title := r.title
    author := r.author
    page := r.page
    sectionLabel := r.sectionLabel
    chunk_index := r.chunk_index
    tags := r.tags }

/-- Merging one keyword hit into `all_results`: fill in the keyword score on an
existing entry, else insert a fresh keyword-only entry. -/
def mergeKeywordResult (m : List ((String × Int) × FusionResult)) (r : KeywordResult) :
    List ((String × Int) × FusionResult) :=
  match lookupA (kkey r) m with
  | some _ => updateA (kkey r) (fun fr => { fr with keyword_score := r.score }) m
  | none => upsert (kkey r) (keywordEntry r) m

/-- The `all_results` dict of `_fuse_results`, keyed by `(document_id, chunk_index)`:
dense hits first (in rank order), then the keyword hits merged in. -/
def allResults (dense : List SearchResult) (kw : List KeywordResult) :
    List ((String × Int) × FusionResult) :=
  kw.foldl mergeKeywordResult
    (dense.foldl (fun m r => upsert (dkey r) (denseEntry r) m) [])

/-- The dict comprehension `{key: rank for rank, r in enumerate(results, 1)}`:
1-based ranks, a duplicate key keeping its last rank. -/
def ranksMap (keys : List (String × Int)) : List ((String × Int) × ℕ) :=
  (keys.zip (List.range' 1 keys.length)).foldl (fun m p => upsert p.1 p.2 m) []

/-- Embedding of `ranks.get(key, 0)`. -/
def rankOf (keys : List (String × Int)) (k : String × Int) : ℕ :=
  (lookupA k (ranksMap keys)).getD 0

/-- The per-entry RRF score: `1/(k + rank)` summed over the lists in which the
entry appears (rank 0 encodes absence). -/
noncomputable def rrfScore (k : ℝ) (denseRank keywordRank : ℕ) : ℝ :=
  (if 0 < denseRank then 1 / (k + (denseRank : ℝ)) else 0) +
  (if 0 < keywordRank then 1 / (k + (keywordRank : ℝ)) else 0)

/-- Embedding of `HybridRetriever._reciprocal_rank_fusion`. -/
noncomputable def reciprocalRankFusion (k : ℝ) (all : List FusionResult)
    (dense : List SearchResult) (kw : List KeywordResult) : List FusionResult :=
  let denseRanks := ranksMap (dense.map dkey)
  let keywordRanks := ranksMap (kw.map kkey)
  all.map fun r =>
    { r with fused_score :=
        rrfScore k ((lookupA (fkey r) denseRanks).getD 0) ((lookupA (fkey r) keywordRanks).getD 0) }

/-- Python `max(iterable, default=d)`. -/
noncomputable def pyMax (xs : List ℝ) (dflt : ℝ) : ℝ :=
  match xs with
  | [] => dflt
  | x :: rest => rest.foldl max x

/-- Embedding of `HybridRetriever._weighted_fusion`: each component normalised by its max
over the merged set (0 if that max is not positive), then weighted. -/
noncomputable def weightedFusion (denseWeight keywordWeight : ℝ)
    (all : List FusionResult) : List FusionResult :=
  let maxDense := pyMax (all.map fun r => r.dense_score) 1
  let maxKeyword := pyMax (all.map fun r => r.keyword_score) 1
  all.map fun r =>
    let normDense := if 0 < maxDense then r.dense_score / maxDense else 0
    let normKeyword := if 0 < maxKeyword then r.keyword_score / maxKeyword else 0
    { r with fused_score := denseWeight * normDense + keywordWeight * normKeyword }

/-- Embedding of `HybridRetriever._fuse_results`: build the dedup map, apply the configured
fusion method, stable-sort by fused score descending. -/
noncomputable def fuseResults (settings : RetrievalSettings)
    (dense : List SearchResult) (kw : List KeywordResult) : List FusionResult :=
  let merged := (allResults dense kw).map Prod.snd
  let fused :=
    if settings.fusion_method = "rrf" then
      reciprocalRankFusion settings.rrf_k merged dense kw
    else
      weightedFusion settings.dense_weight settings.keyword_weight merged
  pySortDesc (fun r => r.fused_score) fused

/-! ### `RAGPipeline` (`app/core/rag_pipeline.py`) -/

/-- A retrieved chunk as `RAGPipeline.retrieve` rebuilds it from a search hit:
text, chunk index, and the metadata bag. -/
structure Chunk where
  text : String
  chunk_index : Int
  metadata : Metadata
deriving DecidableEq

/-- Embedding of `Citation` (`app/models/chat.py`). -/
structure Citation where
  index : Nat
  document_title : String
  page : Int
  sectionLabel : String
  chunk_text : String
deriving DecidableEq

/-- Embedding of `TokenUsage` (`app/models/chat.py`). -/
structure TokenUsage where
  prompt_tokens : Int
  completion_tokens : Int
  total_tokens : Int
deriving DecidableEq

/-- Embedding of `LLMResponse` of `app/core/llm_service.py` as `generate` consumes it. -/
structure LLMResponse where
  content : String
  prompt_tokens : Int
  completion_tokens : Int
  total_tokens : Int
deriving DecidableEq

/-- Embedding of `ChatResponse` (`app/models/chat.py`); `token_usage` defaults to `None`. -/
structure ChatResponse where
  answer : String
  citations : List Citation
  token_usage : Option TokenUsage
deriving DecidableEq

/-- One streamed increment of `RAGPipeline.arag_stream`
(`StreamChunk` of `app/models/chat.py`). -/
structure StreamItem where
  delta : String
  citations : Option (List Citation)
  done : Bool
deriving DecidableEq

/-- The fixed fallback answer of `RAGPipeline.rag` / `arag` / `arag_stream`. -/
def fallbackAnswer : String :=
  "I don't have enough information in the provided documents to answer this question."

/-- The citation list built once per generation call: one 1-indexed `Citation`
per retrieved chunk, in retrieval order, with a 200-character excerpt. -/
def citationsOf (chunks : List Chunk) : List Citation :=
  chunks.enum.map fun p =>
    { index := p.1 + 1
      document_title := p.2.metadata.title
      page := p.2.metadata.page
      sectionLabel := p.2.metadata.sectionLabel
      chunk_text := p.2.text.take 200 }

/-- Embedding of `RAGPipeline.generate`: one LLM call on the formatted prompt, plus the
citation list.  The prompt manager and the LLM are capability parameters. -/
def generate (gen : String → String → LLMResponse) (systemPrompt : String)
    (formatPrompt : String → List Chunk → String)
    (query : String) (chunks : List Chunk) : ChatResponse :=
  let resp := gen (formatPrompt query chunks) systemPrompt
  { answer := resp.content
    citations := citationsOf chunks
    token_usage := some ⟨resp.prompt_tokens, resp.completion_tokens, resp.total_tokens⟩ }

/-- Embedding of `RAGPipeline.rag` with the remote retrieval step abstracted as the chunk
list it returned: an empty retrieval short-circuits to the fallback response
without touching the generation capability. -/
def rag (gen : String → String → LLMResponse) (systemPrompt : String)
    (formatPrompt : String → List Chunk → String)
    (query : String) (retrievedChunks : List Chunk) : ChatResponse :=
  if retrievedChunks.isEmpty then
    { answer := fallbackAnswer, citations := [], token_usage := none }
  else generate gen systemPrompt formatPrompt query retrievedChunks

/-- Embedding of `RAGPipeline.arag_stream` with retrieval abstracted as the chunk list it
returned and the streaming LLM abstracted as the token sequence it yielded:
on empty retrieval a single terminal item carrying the fallback text and an
empty citation list; otherwise one non-terminal item per token followed by the
terminal item carrying the citations. -/
def aragStream (retrievedChunks : List Chunk) (tokens : List String) : List StreamItem :=
  if retrievedChunks.isEmpty then
    [{ delta := fallbackAnswer, citations := some [], done := true }]
  else
    (tokens.map fun t => { delta := t, citations := none, done := false }) ++
      [{ delta := "", citations := some (citationsOf retrievedChunks), done := true }]

/-! ### Metadata filter translation
(`RAGPipeline._build_filter` and the filter block of `HybridRetriever._dense_search`) -/

/-- The value of a `MetadataFilter` (`str | int | float | list[str]`),
floats idealised as rationals. -/
inductive FilterValue where
  | str (s : String)
  | int (n : Int)
  | num (q : ℚ)
  | list (xs : List String)
deriving DecidableEq

/-- Embedding of `isinstance(f.value, list)`. -/
def FilterValue.isList : FilterValue → Bool
  | .list _ => true
  | _ => false

/-- Embedding of `MetadataFilter` (`app/models/common.py`). -/
structure MetadataFilter where
  field : String
  operator : String
  value : FilterValue
deriving DecidableEq

/-- A Qdrant `FieldCondition` as the two translation sites construct it:
`MatchValue`, `MatchAny`, or a one-sided `Range` tagged with its operator. -/
inductive FieldCondition where
  | matchValue (field : String) (value : FilterValue)
  | matchAny (field : String) (values : List String)
  | range (field : String) (op : String) (value : FilterValue)
deriving DecidableEq

/-- The conditions one filter contributes: the `eq` / `in`-with-list /
`gt|gte|lt|lte` cascade; any other operator contributes nothing. -/
def condOf (f : MetadataFilter) : List FieldCondition :=
  if f.operator = "eq" then [.matchValue f.field f.value]
  else if f.operator = "in" ∧ f.value.isList = true then
    match f.value with
    | .list xs => [.matchAny f.field xs]
    | _ => []
  else if f.operator = "gt" ∨ f.operator = "gte" ∨ f.operator = "lt" ∨ f.operator = "lte" then
    [.range f.field f.operator f.value]
  else []

/-- The `conditions` accumulation loop shared by `_build_filter` and
`_dense_search`. -/
def buildFilterConditions (filters : List MetadataFilter) : List FieldCondition :=
  filters.foldl (fun acc f => acc ++ condOf f) []

/-- Embedding of `Filter(must=conditions) if conditions else None`. -/
def buildFilter (filters : List MetadataFilter) : Option (List FieldCondition) :=
  let conds := buildFilterConditions filters
  if conds.isEmpty then none else some conds

/-- A filter the cascade translates rather than drops. -/
def isSupportedFilter (f : MetadataFilter) : Bool :=
  decide (f.operator = "eq") ||
  (decide (f.operator = "in") && f.value.isList) ||
  decide (f.operator = "gt") || decide (f.operator = "gte") ||
  decide (f.operator = "lt") || decide (f.operator = "lte")

/-! ### Concrete instances used to exercise the theorems -/

/-- A sample metadata bag. -/
def mdA : Metadata := ⟨"d1", "Title", "Auth", 1, "S1", 0, []⟩

/-- A sample retrieved chunk. -/
def chunkA : Chunk := ⟨"some text", 0, mdA⟩

/-- A dense hit on `("d1", 0)` with score 1. -/
def denseA : SearchResult := ⟨"some text", 1, "d1", "Title", "Auth", 1, "S1", 0, []⟩

/-- A dense hit on `("d1", 0)` whose similarity score is exactly 0. -/
def denseZero : SearchResult := ⟨"some text", 0, "d1", "Title", "Auth", 1, "S1", 0, []⟩

/-- A keyword hit on `("d1", 0)` with score 2. -/
def kwA : KeywordResult := ⟨"d1_0", "some text", 2, "d1", "Title", "Auth", 1, "S1", 0, []⟩

/-- A keyword hit on `("d2", 0)` with score 1. -/
def kwB : KeywordResult := ⟨"d2_0", "other text", 1, "d2", "T2", "Auth", 3, "S2", 0, []⟩

/-- The default `RetrievalSettings` of `retrieval_config.py`. -/
def defaultSettings : RetrievalSettings :=
  { top_k_dense := 10, top_k_keyword := 10, fusion_method := "rrf", rrf_k := 60,
    dense_weight := 0.7, keyword_weight := 0.3, final_top_k := 5,
    bm25_k1 := 1.5, bm25_b := 0.75 }

/-- The fusion entry the RRF witness inspects. -/
noncomputable def cFused : FusionResult :=
  { denseEntry denseA with fused_score := rrfScore 60 1 1 }

/-- A one-document corpus entry ("dogs only") for the keyword-search witness. -/
def wDoc : DocEntry := ⟨"dogs only", ["dogs", "only"], [("dogs", 1), ("only", 1)], 2, mdA⟩

/-- A built one-document index state for the keyword-search witness. -/
def wState : BM25State :=
  { k1 := 1.5, b := 0.75, documents := [("c1", wDoc)],
    term_doc_freq := [("dogs", 1), ("only", 1)],
    avg_doc_length := 2, total_docs := 1, vocab_built := true }

/-- A freshly constructed `BM25Searcher` with nothing indexed. -/
def emptyBM25 : BM25State :=
  { k1 := 1.5, b := 0.75, documents := [], term_doc_freq := [],
    avg_doc_length := 0, total_docs := 0, vocab_built := false }

end RS

namespace RS

/-! ### Helper lemmas on the filter cascade -/

/-- A filter outside the supported cascade contributes no condition. -/
theorem condOf_unsupported (f : MetadataFilter) (h : isSupportedFilter f = false) :
    condOf f = [] := by
  unfold isSupportedFilter at h
  unfold condOf
  by_cases h1 : f.operator = "eq"
  · simp [h1] at h
  · rw [if_neg h1]
    by_cases h2 : f.operator = "in" ∧ f.value.isList = true
    · obtain ⟨h2a, h2b⟩ := h2
      simp [h2a, h2b] at h
    · rw [if_neg h2]
      by_cases h3 : f.operator = "gt" ∨ f.operator = "gte" ∨ f.operator = "lt" ∨ f.operator = "lte"
      · rcases h3 with h3 | h3 | h3 | h3 <;> simp [h3] at h
      · rw [if_neg h3]

/-- A supported filter contributes exactly one condition. -/
theorem condOf_supported (f : MetadataFilter) (h : isSupportedFilter f = true) :
    ∃ c, condOf f = [c] := by
  unfold condOf
  by_cases h1 : f.operator = "eq"
  · exact ⟨_, by rw [if_pos h1]⟩
  · rw [if_neg h1]
    by_cases h2 : f.operator = "in" ∧ f.value.isList = true
    · rw [if_pos h2]
      obtain ⟨h2a, h2b⟩ := h2
      cases hv : f.value with
      | list xs => exact ⟨_, rfl⟩
      | str s => rw [hv] at h2b; simp [FilterValue.isList] at h2b
      | int n => rw [hv] at h2b; simp [FilterValue.isList] at h2b
      | num q => rw [hv] at h2b; simp [FilterValue.isList] at h2b
    · rw [if_neg h2]
      by_cases h3 : f.operator = "gt" ∨ f.operator = "gte" ∨ f.operator = "lt" ∨ f.operator = "lte"
      · exact ⟨_, by rw [if_pos h3]⟩
      · exfalso
        unfold isSupportedFilter at h
        push_neg at h2 h3
        simp [h1, h3] at h
        obtain ⟨ha, hb⟩ := h
        exact absurd (h2 ha) (by simp [hb])

/-- The condition loop is the concatenation of per-filter contributions. -/
theorem buildFilterConditions_eq_flatMap (filters : List MetadataFilter) :
    buildFilterConditions filters = filters.flatMap condOf := by
  unfold buildFilterConditions
  suffices h : ∀ (l : List MetadataFilter) (init : List FieldCondition),
      l.foldl (fun acc f => acc ++ condOf f) init = init ++ l.flatMap condOf by
    simpa using h filters []
  intro l
  induction l with
  | nil => simp
  | cons f fs ih => intro init; simp [ih, List.flatMap_cons]

/-- C9: only `eq`, `in`-with-a-list-value, and `gt`/`gte`/`lt`/`lte` filters are
translated into vector-store conditions (exactly one condition each); a filter
with any other operator is silently dropped — the built condition list is the
one the supported filters alone produce, and no error is raised. -/
theorem filter_translation_policy (filters : List MetadataFilter) :
    buildFilterConditions filters = buildFilterConditions (filters.filter isSupportedFilter) ∧
    (∀ f ∈ filters, isSupportedFilter f = false → condOf f = []) ∧
    (∀ f ∈ filters, isSupportedFilter f = true → ∃ c, condOf f = [c]) := by
  refine ⟨?_, fun f _ h => condOf_unsupported f h, fun f _ h => condOf_supported f h⟩
  rw [buildFilterConditions_eq_flatMap, buildFilterConditions_eq_flatMap]
  induction filters with
  | nil => rfl
  | cons f fs ih =>
    by_cases h : isSupportedFilter f
    · simp [List.filter_cons, h, List.flatMap_cons, ih]
    · have h' : isSupportedFilter f = false := by simpa using h
      simp [List.filter_cons, h', List.flatMap_cons, ih, condOf_unsupported f h']

/-- Witness for C9 at a concrete filter list: a `between` filter is dropped
silently while the `eq` filter before it is translated. -/
theorem filter_translation_policy_witness :
    buildFilterConditions
        [⟨"page", "eq", .int 3⟩, ⟨"page", "between", .int 4⟩] =
      buildFilterConditions
        (List.filter isSupportedFilter
          [⟨"page", "eq", .int 3⟩, ⟨"page", "between", .int 4⟩]) ∧
    isSupportedFilter ⟨"page", "between", .int 4⟩ = false ∧
    condOf (⟨"page", "between", .int 4⟩ : MetadataFilter) = [] := by
  refine ⟨(filter_translation_policy _).1, rfl, ?_⟩
  exact (filter_translation_policy [⟨"page", "eq", .int 3⟩, ⟨"page", "between", .int 4⟩]).2.1
    ⟨"page", "between", .int 4⟩ (by simp) rfl

/-! ### C6: empty retrieval short-circuits to the fallback response -/

/-- C6: whenever retrieval returns no chunks, the blocking `rag` operation
returns the fixed fallback answer with an empty citation list, for every
generation capability — i.e. without the generation capability influencing
the response at all. -/
theorem rag_empty_retrieval_fallback (gen : String → String → LLMResponse)
    (systemPrompt : String) (formatPrompt : String → List Chunk → String)
    (query : String) (retrievedChunks : List Chunk) (h : retrievedChunks = []) :
    rag gen systemPrompt formatPrompt query retrievedChunks =
      { answer := fallbackAnswer, citations := [], token_usage := none } := by
  subst h; rfl

/-- Witness for C6 at a concrete generation function and query. -/
theorem rag_empty_retrieval_fallback_witness :
    ([] : List Chunk) = [] ∧
    rag (fun _ _ => ⟨"generated", 1, 2, 3⟩) "sys" (fun _ _ => "prompt") "q" [] =
      { answer := fallbackAnswer, citations := [], token_usage := none } :=
  ⟨rfl, rag_empty_retrieval_fallback _ _ _ _ _ rfl⟩

/-! ### C3: the streaming increment protocol -/

/-- Counterexample to C3 as stated: on an empty retrieval the stream consists
of a single item with `done = true` whose `delta` is the fallback string, not
the empty string the claim requires of the terminal item. -/
theorem arag_stream_empty_retrieval_cex :
    aragStream [] ["t1", "t2", "t3"] =
      [{ delta := fallbackAnswer, citations := some [], done := true }] ∧
    fallbackAnswer ≠ "" ∧
    (∀ it ∈ aragStream [] ["t1", "t2", "t3"], it.done = true ∧ it.delta ≠ "") := by
  refine ⟨rfl, by decide, ?_⟩
  intro it hit
  rw [show aragStream [] ["t1", "t2", "t3"] =
      [{ delta := fallbackAnswer, citations := some [], done := true }] from rfl] at hit
  rw [List.mem_singleton.mp hit]
  exact ⟨rfl, by decide⟩

/-- C3 amended: when retrieval returns at least one chunk, the stream is
exactly the token increments `{delta := token, citations := none, done := false}`
in order, followed by one terminal `{delta := "", citations := full list,
done := true}`; the terminal item is the only one with `done = true`, so no
item follows it. -/
theorem arag_stream_protocol (chunks : List Chunk) (h : chunks ≠ [])
    (tokens : List String) :
    (aragStream chunks tokens).dropLast.map (fun it => (it.delta, it.citations, it.done)) =
      tokens.map (fun t => (t, (none : Option (List Citation)), false)) ∧
    (aragStream chunks tokens).getLast? =
      some { delta := "", citations := some (citationsOf chunks), done := true } ∧
    (aragStream chunks tokens).countP (fun it => it.done) = 1 := by
  have hne : chunks.isEmpty = false := by
    cases chunks with
    | nil => exact absurd rfl h
    | cons a l => rfl
  unfold aragStream
  rw [hne]
  simp only [Bool.false_eq_true, if_false]
  refine ⟨?_, ?_, ?_⟩
  · rw [List.dropLast_concat, List.map_map]
    rfl
  · exact List.getLast?_concat _
  · rw [List.countP_append, List.countP_map]
    have hz : ((fun it => it.done) ∘
        fun t => ({ delta := t, citations := none, done := false } : StreamItem)) =
          fun _ => false := rfl
    rw [hz]
    simp

/-- Witness for C3 (amended) on the spec scenario: three token increments. -/
theorem arag_stream_protocol_witness :
    ([chunkA] : List Chunk) ≠ [] ∧
    ((aragStream [chunkA] ["a", "b", "c"]).dropLast.map
        (fun it => (it.delta, it.citations, it.done)) =
      ["a", "b", "c"].map (fun t => (t, (none : Option (List Citation)), false)) ∧
    (aragStream [chunkA] ["a", "b", "c"]).getLast? =
      some { delta := "", citations := some (citationsOf [chunkA]), done := true } ∧
    (aragStream [chunkA] ["a", "b", "c"]).countP (fun it => it.done) = 1) :=
  ⟨by decide, arag_stream_protocol [chunkA] (by decide) ["a", "b", "c"]⟩

/-! ### C2: the sign of the BM25 IDF -/

/-- Counterexample to C2 as stated: there is no corpus size `N` and document
frequency `df` with `N/2 < df ≤ N` for which the code's IDF is negative — the
`+ 1` inside the logarithm keeps it positive whenever `df ≤ N`.  The explicit
concrete input `N = df = 2` (a term in every document of a two-document
corpus, so within the claimed range) evaluates to `ln(0.5/2.5 + 1) = ln(6/5)`,
which is strictly positive, not negative. -/
theorem idf_negative_cex :
    (¬ ∃ N df : ℕ, N < 2 * df ∧ df ≤ N ∧ idf N df < 0) ∧
    2 < 2 * 2 ∧ 2 ≤ 2 ∧ idf 2 2 = Real.log (6 / 5) ∧ 0 < idf 2 2 := by
  have h65 : idf 2 2 = Real.log (6 / 5) := by
    unfold idf
    norm_num
  refine ⟨?_, by norm_num, le_refl 2, h65, ?_⟩
  · rintro ⟨N, df, -, hle, hneg⟩
    have hdf : (df : ℝ) ≤ (N : ℝ) := Nat.cast_le.mpr hle
    have hd : (0 : ℝ) < (df : ℝ) + 0.5 := by positivity
    have hfrac : (0 : ℝ) ≤ ((N : ℝ) - (df : ℝ) + 0.5) / ((df : ℝ) + 0.5) :=
      div_nonneg (by linarith) hd.le
    have := Real.log_nonneg
      (show (1 : ℝ) ≤ ((N : ℝ) - (df : ℝ) + 0.5) / ((df : ℝ) + 0.5) + 1.0 by linarith)
    unfold idf at hneg
    linarith
  · rw [h65]
    exact Real.log_pos (by norm_num)

/-- C2 amended: the IDF is computed as `ln((N − df + 0.5)/(df + 0.5) + 1)`,
and for every term occurring in the corpus (`df ≤ N`, in particular whenever
`N/2 < df ≤ N`) this value is strictly positive: negative IDF contributions
cannot arise, so the absence of clamping in `_bm25_score` is vacuous. -/
theorem idf_formula_and_pos (N df : ℕ) (h : df ≤ N) :
    idf N df = Real.log (((N : ℝ) - (df : ℝ) + 0.5) / ((df : ℝ) + 0.5) + 1.0) ∧
    0 < idf N df := by
  refine ⟨rfl, ?_⟩
  have hdf : (df : ℝ) ≤ (N : ℝ) := Nat.cast_le.mpr h
  have hd : (0 : ℝ) < (df : ℝ) + 0.5 := by positivity
  have hnum : (0 : ℝ) < (N : ℝ) - (df : ℝ) + 0.5 := by linarith
  have hfrac : (0 : ℝ) < ((N : ℝ) - (df : ℝ) + 0.5) / ((df : ℝ) + 0.5) := div_pos hnum hd
  unfold idf
  exact Real.log_pos (by linarith)

/-- Witness for C2 (amended) at `N = 2`, `df = 2` — a term occurring in every
document of a two-document corpus, i.e. in more than half of it. -/
theorem idf_formula_and_pos_witness :
    2 ≤ 2 ∧
    idf 2 2 = Real.log ((((2 : ℕ) : ℝ) - ((2 : ℕ) : ℝ) + 0.5) / (((2 : ℕ) : ℝ) + 0.5) + 1.0) ∧
    0 < idf 2 2 :=
  ⟨le_refl 2, idf_formula_and_pos 2 2 (le_refl 2)⟩

/-! ### C1: RRF score of an item present in both lists -/

/-- C1: with RRF constant `k > 0`, an entry whose key holds 1-based rank
`rd > 0` in the dense list and `rk > 0` in the keyword list receives fused
score `1/(k+rd) + 1/(k+rk)`, which strictly exceeds the score the same entry
would get appearing at the same rank in only one of the two lists. -/
theorem rrf_score_in_both_lists (k : ℝ) (hk : 0 < k)
    (all : List FusionResult) (dense : List SearchResult) (kw : List KeywordResult)
    (r : FusionResult) (hr : r ∈ reciprocalRankFusion k all dense kw)
    (rd rk : ℕ) (hrd : 0 < rd) (hrk : 0 < rk)
    (hd : rankOf (dense.map dkey) (fkey r) = rd)
    (hw : rankOf (kw.map kkey) (fkey r) = rk) :
    r.fused_score = 1 / (k + (rd : ℝ)) + 1 / (k + (rk : ℝ)) ∧
    rrfScore k rd 0 < r.fused_score ∧ rrfScore k 0 rk < r.fused_score := by
  obtain ⟨r0, _, hmap⟩ := List.mem_map.mp hr
  have hscore : r.fused_score =
      rrfScore k (rankOf (dense.map dkey) (fkey r)) (rankOf (kw.map kkey) (fkey r)) := by
    rw [← hmap]; rfl
  have hdpos : (0 : ℝ) < k + (rd : ℝ) := by
    have : (0 : ℝ) < (rd : ℝ) := by exact_mod_cast hrd
    linarith
  have hkpos : (0 : ℝ) < k + (rk : ℝ) := by
    have : (0 : ℝ) < (rk : ℝ) := by exact_mod_cast hrk
    linarith
  have hd1 : (0 : ℝ) < 1 / (k + (rd : ℝ)) := by positivity
  have hk1 : (0 : ℝ) < 1 / (k + (rk : ℝ)) := by positivity
  have heq : r.fused_score = 1 / (k + (rd : ℝ)) + 1 / (k + (rk : ℝ)) := by
    rw [hscore, hd, hw]
    unfold rrfScore
    rw [if_pos hrd, if_pos hrk]
  refine ⟨heq, ?_, ?_⟩
  · have : rrfScore k rd 0 = 1 / (k + (rd : ℝ)) := by
      unfold rrfScore
      rw [if_pos hrd, if_neg (lt_irrefl 0), add_zero]
    rw [this, heq]; linarith
  · have : rrfScore k 0 rk = 1 / (k + (rk : ℝ)) := by
      unfold rrfScore
      rw [if_pos hrk, if_neg (lt_irrefl 0), zero_add]
    rw [this, heq]; linarith

/-- Witness for C1 on the spec scenario: `k = 60`, the key `("d1", 0)` at rank
1 in the dense list and rank 1 in the keyword list (which also holds a second
entry ranked 2). -/
theorem rrf_score_in_both_lists_witness :
    (0 : ℝ) < 60 ∧
    rankOf ([denseA].map dkey) (fkey cFused) = 1 ∧
    rankOf ([kwA, kwB].map kkey) (fkey cFused) = 1 ∧
    (cFused.fused_score = 1 / (60 + ((1 : ℕ) : ℝ)) + 1 / (60 + ((1 : ℕ) : ℝ)) ∧
      rrfScore 60 1 0 < cFused.fused_score ∧ rrfScore 60 0 1 < cFused.fused_score) := by
  refine ⟨by norm_num, rfl, rfl, ?_⟩
  exact rrf_score_in_both_lists 60 (by norm_num) [denseEntry denseA] [denseA] [kwA, kwB]
    cFused (List.mem_singleton.mpr rfl) 1 1 (by norm_num) (by norm_num) rfl rfl

/-! ### Generic lemmas: the stable sort, association lists, fold invariants -/

/-- Membership in an insertion step. -/
theorem mem_insertDesc {α : Type} (key : α → ℝ) (a x : α) (l : List α)
    (hx : x ∈ insertDesc key a l) : x = a ∨ x ∈ l := by
  induction l with
  | nil =>
    unfold insertDesc at hx
    exact Or.inl (List.mem_singleton.mp hx)
  | cons b rest ih =>
    unfold insertDesc at hx
    by_cases h : key a < key b
    · rw [if_pos h] at hx
      rcases List.mem_cons.mp hx with rfl | hx'
      · exact Or.inr (List.mem_cons_self _ _)
      · rcases ih hx' with h' | h'
        · exact Or.inl h'
        · exact Or.inr (List.mem_cons_of_mem _ h')
    · rw [if_neg h] at hx
      rcases List.mem_cons.mp hx with rfl | hx'
      · exact Or.inl rfl
      · exact Or.inr hx'

/-- An insertion step is a permutation of consing. -/
theorem insertDesc_perm {α : Type} (key : α → ℝ) (a : α) (l : List α) :
    (insertDesc key a l).Perm (a :: l) := by
  induction l with
  | nil => exact List.Perm.refl _
  | cons b rest ih =>
    unfold insertDesc
    by_cases h : key a < key b
    · rw [if_pos h]
      exact ((ih.cons b).trans (List.Perm.swap a b rest))
    · rw [if_neg h]

/-- The stable descending sort permutes its input. -/
theorem pySortDesc_perm {α : Type} (key : α → ℝ) (l : List α) :
    (pySortDesc key l).Perm l := by
  induction l with
  | nil => exact List.Perm.refl _
  | cons a rest ih =>
    have hcons : pySortDesc key (a :: rest) = insertDesc key a (pySortDesc key rest) := rfl
    rw [hcons]
    exact (insertDesc_perm key a _).trans (ih.cons a)

/-- Inserting an element that stood before every element of `l` in the original
list preserves the combined order "strictly larger key, or equal key and
original order". -/
theorem insertDesc_pairwise {α : Type} (key : α → ℝ) (R : α → α → Prop) (a : α) (l : List α)
    (hl : l.Pairwise fun x y => key y < key x ∨ (key y = key x ∧ R x y))
    (ha : ∀ b ∈ l, R a b) :
    (insertDesc key a l).Pairwise fun x y => key y < key x ∨ (key y = key x ∧ R x y) := by
  induction l with
  | nil => simp [insertDesc]
  | cons b rest ih =>
    rw [List.pairwise_cons] at hl
    obtain ⟨hb, hrest⟩ := hl
    unfold insertDesc
    by_cases h : key a < key b
    · rw [if_pos h]
      rw [List.pairwise_cons]
      refine ⟨?_, ih hrest fun b' hb' => ha b' (List.mem_cons_of_mem b hb')⟩
      intro x hx
      rcases mem_insertDesc key a x rest hx with rfl | hx'
      · exact Or.inl h
      · exact hb x hx'
    · rw [if_neg h]
      push_neg at h
      rw [List.pairwise_cons]
      refine ⟨?_, List.pairwise_cons.mpr ⟨hb, hrest⟩⟩
      intro x hx
      rcases List.mem_cons.mp hx with rfl | hx'
      · rcases lt_or_eq_of_le h with hlt | heq
        · exact Or.inl hlt
        · exact Or.inr ⟨heq, ha x (List.mem_cons_self x rest)⟩
      · have hxb : key x ≤ key b := by
          rcases hb x hx' with h1 | ⟨h1, -⟩
          · exact le_of_lt h1
          · exact le_of_eq h1
        rcases lt_or_eq_of_le (le_trans hxb h) with hlt | heq
        · exact Or.inl hlt
        · exact Or.inr ⟨heq, ha x (List.mem_cons_of_mem b hx')⟩

/-- Stability of the sort: the output is ordered by "strictly larger key, or
equal key and original relative order", for any relation `R` that held
pairwise on the input. -/
theorem pySortDesc_pairwise {α : Type} (key : α → ℝ) (R : α → α → Prop) (l : List α)
    (hl : l.Pairwise R) :
    (pySortDesc key l).Pairwise fun x y => key y < key x ∨ (key y = key x ∧ R x y) := by
  induction l with
  | nil => simp [pySortDesc]
  | cons a rest ih =>
    rw [List.pairwise_cons] at hl
    obtain ⟨ha, hrest⟩ := hl
    have hcons : pySortDesc key (a :: rest) = insertDesc key a (pySortDesc key rest) := rfl
    rw [hcons]
    refine insertDesc_pairwise key R a _ (ih hrest) ?_
    intro b hb
    exact ha b ((pySortDesc_perm key rest).mem_iff.mp hb)

/-- The sort output is weakly descending in the key. -/
theorem pySortDesc_sorted {α : Type} (key : α → ℝ) (l : List α) :
    (pySortDesc key l).Pairwise fun x y => key y ≤ key x := by
  have htriv : l.Pairwise fun _ _ => True := by
    induction l with
    | nil => simp
    | cons a rest ih => exact List.pairwise_cons.mpr ⟨fun _ _ => trivial, ih⟩
  refine (pySortDesc_pairwise key (fun _ _ => True) l htriv).imp ?_
  rintro x y (h | ⟨h, -⟩)
  · exact le_of_lt h
  · exact le_of_eq h

/-- Membership after `upsert`. -/
theorem mem_upsert {α β : Type} [DecidableEq α] (k : α) (v : β) (m : List (α × β))
    (q : α × β) (hq : q ∈ upsert k v m) : q = (k, v) ∨ q ∈ m := by
  induction m with
  | nil =>
    unfold upsert at hq
    exact Or.inl (List.mem_singleton.mp hq)
  | cons p rest ih =>
    unfold upsert at hq
    by_cases h : p.1 = k
    · rw [if_pos h] at hq
      rcases List.mem_cons.mp hq with rfl | hq'
      · exact Or.inl rfl
      · exact Or.inr (List.mem_cons_of_mem _ hq')
    · rw [if_neg h] at hq
      rcases List.mem_cons.mp hq with rfl | hq'
      · exact Or.inr (List.mem_cons_self _ _)
      · rcases ih hq' with h' | h'
        · exact Or.inl h'
        · exact Or.inr (List.mem_cons_of_mem _ h')

/-- Membership after `updateA`. -/
theorem mem_updateA {α β : Type} [DecidableEq α] (k : α) (f : β → β) (m : List (α × β))
    (q : α × β) (hq : q ∈ updateA k f m) : (∃ p ∈ m, q = (p.1, f p.2)) ∨ q ∈ m := by
  induction m with
  | nil => simp [updateA] at hq
  | cons p rest ih =>
    unfold updateA at hq
    by_cases h : p.1 = k
    · rw [if_pos h] at hq
      rcases List.mem_cons.mp hq with rfl | hq'
      · exact Or.inl ⟨p, List.mem_cons_self _ _, rfl⟩
      · exact Or.inr (List.mem_cons_of_mem _ hq')
    · rw [if_neg h] at hq
      rcases List.mem_cons.mp hq with rfl | hq'
      · exact Or.inr (List.mem_cons_self _ _)
      · rcases ih hq' with ⟨p', hp', hq''⟩ | h'
        · exact Or.inl ⟨p', List.mem_cons_of_mem _ hp', hq''⟩
        · exact Or.inr (List.mem_cons_of_mem _ h')

/-- The key list after `upsert`: unchanged if the key was present, else the
key is appended. -/
theorem map_fst_upsert {α β : Type} [DecidableEq α] (k : α) (v : β) (m : List (α × β)) :
    (upsert k v m).map Prod.fst =
      if k ∈ m.map Prod.fst then m.map Prod.fst else m.map Prod.fst ++ [k] := by
  induction m with
  | nil => simp [upsert]
  | cons p rest ih =>
    unfold upsert
    by_cases h : p.1 = k
    · rw [if_pos h]
      simp [h]
    · rw [if_neg h]
      have hne : ¬ k = p.1 := fun hk => h hk.symm
      simp only [List.map_cons, List.mem_cons, hne, false_or]
      rw [ih]
      by_cases hk : k ∈ rest.map Prod.fst
      · rw [if_pos hk, if_pos hk]
      · rw [if_neg hk, if_neg hk]
        simp

/-- The function `updateA` never changes the key list. -/
theorem map_fst_updateA {α β : Type} [DecidableEq α] (k : α) (f : β → β) (m : List (α × β)) :
    (updateA k f m).map Prod.fst = m.map Prod.fst := by
  induction m with
  | nil => rfl
  | cons p rest ih =>
    unfold updateA
    by_cases h : p.1 = k
    · rw [if_pos h]; simp [h]
    · rw [if_neg h]; simp [ih]

/-- The function `upsert` preserves key distinctness. -/
theorem nodup_upsert {α β : Type} [DecidableEq α] (k : α) (v : β) (m : List (α × β))
    (hm : (m.map Prod.fst).Nodup) : ((upsert k v m).map Prod.fst).Nodup := by
  rw [map_fst_upsert]
  by_cases hk : k ∈ m.map Prod.fst
  · rw [if_pos hk]; exact hm
  · rw [if_neg hk]
    simp [List.nodup_append, hm, hk]

/-- Invariants survive a left fold when every step preserves them. -/
theorem foldl_invariant {α σ : Type} (P : σ → Prop) (f : σ → α → σ) (l : List α) (s : σ)
    (h0 : P s) (hstep : ∀ s a, a ∈ l → P s → P (f s a)) : P (l.foldl f s) := by
  induction l generalizing s with
  | nil => exact h0
  | cons a rest ih =>
    exact ih (f s a) (hstep s a (List.mem_cons_self a rest) h0)
      fun s' b hb hP => hstep s' b (List.mem_cons_of_mem a hb) hP

/-! ### The `all_results` dict invariants -/

/-- The dedup map has distinct keys, and every stored entry's
`(document_id, chunk_index)` pair equals the key it is stored under. -/
theorem allResults_invariant (dense : List SearchResult) (kw : List KeywordResult) :
    (((allResults dense kw).map Prod.fst).Nodup) ∧
      ∀ p ∈ allResults dense kw, fkey p.2 = p.1 := by
  unfold allResults
  refine foldl_invariant
    (fun m => ((m.map Prod.fst).Nodup) ∧ ∀ p ∈ m, fkey p.2 = p.1)
    mergeKeywordResult kw _ ?_ ?_
  · refine foldl_invariant
      (fun m => ((m.map Prod.fst).Nodup) ∧ ∀ p ∈ m, fkey p.2 = p.1)
      (fun m r => upsert (dkey r) (denseEntry r) m) dense [] ⟨List.nodup_nil, by simp⟩ ?_
    rintro m r - ⟨hn, hc⟩
    refine ⟨nodup_upsert _ _ _ hn, ?_⟩
    intro p hp
    rcases mem_upsert _ _ _ p hp with rfl | hp'
    · rfl
    · exact hc p hp'
  · rintro m r - ⟨hn, hc⟩
    unfold mergeKeywordResult
    cases h : lookupA (kkey r) m with
    | some fr =>
      refine ⟨by rw [map_fst_updateA]; exact hn, ?_⟩
      intro p hp
      rcases mem_updateA _ _ _ p hp with ⟨p', hp', rfl⟩ | hp'
      · exact hc p' hp'
      · exact hc p hp'
    | none =>
      refine ⟨nodup_upsert _ _ _ hn, ?_⟩
      intro p hp
      rcases mem_upsert _ _ _ p hp with rfl | hp'
      · rfl
      · exact hc p hp'

/-- RRF only rewrites `fused_score`, so it fixes the key list. -/
theorem rrf_map_fkey (k : ℝ) (all : List FusionResult)
    (dense : List SearchResult) (kw : List KeywordResult) :
    (reciprocalRankFusion k all dense kw).map fkey = all.map fkey := by
  simp only [reciprocalRankFusion]
  rw [List.map_map]
  rfl

/-- Weighted fusion only rewrites `fused_score`, so it fixes the key list. -/
theorem weighted_map_fkey (dw kwW : ℝ) (all : List FusionResult) :
    (weightedFusion dw kwW all).map fkey = all.map fkey := by
  simp only [weightedFusion]
  rw [List.map_map]
  rfl

/-! ### C5: at most one fused entry per `(document_id, chunk_index)` key -/

/-- C5: for every combination of dense and keyword inputs — duplicate keys
within or across the two lists included — the list `_fuse_results` returns
contains at most one entry per `(document_id, chunk_index)` key. -/
theorem fuse_results_dedup (settings : RetrievalSettings)
    (dense : List SearchResult) (kw : List KeywordResult) :
    ((fuseResults settings dense kw).map fkey).Nodup := by
  obtain ⟨hnodup, hco⟩ := allResults_invariant dense kw
  have hmerged : (((allResults dense kw).map Prod.snd).map fkey) =
      (allResults dense kw).map Prod.fst := by
    rw [List.map_map]
    exact List.map_congr_left fun p hp => hco p hp
  have h1 : fuseResults settings dense kw =
      pySortDesc (fun r => r.fused_score)
        (if settings.fusion_method = "rrf" then
          reciprocalRankFusion settings.rrf_k ((allResults dense kw).map Prod.snd) dense kw
        else
          weightedFusion settings.dense_weight settings.keyword_weight
            ((allResults dense kw).map Prod.snd)) := rfl
  rw [h1]
  have hperm := (pySortDesc_perm (fun r : FusionResult => r.fused_score)
    (if settings.fusion_method = "rrf" then
      reciprocalRankFusion settings.rrf_k ((allResults dense kw).map Prod.snd) dense kw
    else
      weightedFusion settings.dense_weight settings.keyword_weight
        ((allResults dense kw).map Prod.snd))).map fkey
  rw [hperm.nodup_iff]
  by_cases hm : settings.fusion_method = "rrf"
  · rw [if_pos hm, rrf_map_fkey, hmerged]
    exact hnodup
  · rw [if_neg hm, weighted_map_fkey, hmerged]
    exact hnodup

/-! ### C4: non-zero component scores -/

/-- Counterexample to C4 as stated: a dense hit whose similarity score is
exactly 0 yields a fused entry whose dense and keyword component scores are
both zero. -/
theorem fused_nonzero_component_cex :
    ∃ r, r ∈ fuseResults defaultSettings [denseZero] [] ∧
      r.dense_score = 0 ∧ r.keyword_score = 0 := by
  refine ⟨{ denseEntry denseZero with fused_score := rrfScore 60 1 0 }, ?_, rfl, rfl⟩
  exact List.mem_singleton.mpr rfl

/-- C4 amended: provided every dense input score and every keyword input score
is non-zero (keyword scores always are — `search` keeps only strictly positive
BM25 scores — while Qdrant similarity scores can be 0), every fused entry has
a non-zero dense or keyword component. -/
theorem fused_has_nonzero_component (settings : RetrievalSettings)
    (dense : List SearchResult) (kw : List KeywordResult)
    (hdense : ∀ r ∈ dense, r.score ≠ 0) (hkw : ∀ r ∈ kw, r.score ≠ 0) :
    ∀ r ∈ fuseResults settings dense kw, r.dense_score ≠ 0 ∨ r.keyword_score ≠ 0 := by
  have hall : ∀ p ∈ allResults dense kw,
      p.2.dense_score ≠ 0 ∨ p.2.keyword_score ≠ 0 := by
    unfold allResults
    refine foldl_invariant
      (fun m => ∀ p ∈ m, p.2.dense_score ≠ 0 ∨ p.2.keyword_score ≠ 0)
      mergeKeywordResult kw _ ?_ ?_
    · refine foldl_invariant
        (fun m => ∀ p ∈ m, p.2.dense_score ≠ 0 ∨ p.2.keyword_score ≠ 0)
        (fun m r => upsert (dkey r) (denseEntry r) m) dense [] (by simp) ?_
      intro m r hr hP p hp
      rcases mem_upsert _ _ _ p hp with rfl | hp'
      · exact Or.inl (hdense r hr)
      · exact hP p hp'
    · intro m r hr hP p hp
      unfold mergeKeywordResult at hp
      revert hp
      cases h : lookupA (kkey r) m with
      | some fr =>
        intro hp
        rcases mem_updateA _ _ _ p hp with ⟨p', hp', rfl⟩ | hp'
        · exact Or.inr (hkw r hr)
        · exact hP p hp'
      | none =>
        intro hp
        rcases mem_upsert _ _ _ p hp with rfl | hp'
        · exact Or.inr (hkw r hr)
        · exact hP p hp'
  intro r hr
  have h1 : fuseResults settings dense kw =
      pySortDesc (fun r => r.fused_score)
        (if settings.fusion_method = "rrf" then
          reciprocalRankFusion settings.rrf_k ((allResults dense kw).map Prod.snd) dense kw
        else
          weightedFusion settings.dense_weight settings.keyword_weight
            ((allResults dense kw).map Prod.snd)) := rfl
  rw [h1] at hr
  have hr' := (pySortDesc_perm (fun r : FusionResult => r.fused_score) _).mem_iff.mp hr
  by_cases hm : settings.fusion_method = "rrf"
  · rw [if_pos hm] at hr'
    obtain ⟨r0, hr0, rfl⟩ := List.mem_map.mp hr'
    obtain ⟨p, hp, rfl⟩ := List.mem_map.mp hr0
    exact hall p hp
  · rw [if_neg hm] at hr'
    obtain ⟨r0, hr0, rfl⟩ := List.mem_map.mp hr'
    obtain ⟨p, hp, rfl⟩ := List.mem_map.mp hr0
    exact hall p hp

/-- Witness for C4 (amended): one dense hit with non-zero score and one
keyword-only hit. -/
theorem fused_has_nonzero_component_witness :
    (∀ r ∈ [denseA], r.score ≠ (0 : ℝ)) ∧ (∀ r ∈ [kwB], r.score ≠ (0 : ℝ)) ∧
    ∀ r ∈ fuseResults defaultSettings [denseA] [kwB],
      r.dense_score ≠ 0 ∨ r.keyword_score ≠ 0 := by
  have h1 : ∀ r ∈ [denseA], r.score ≠ (0 : ℝ) := by
    intro r hr
    rw [List.mem_singleton.mp hr]
    show (1 : ℝ) ≠ 0
    norm_num
  have h2 : ∀ r ∈ [kwB], r.score ≠ (0 : ℝ) := by
    intro r hr
    rw [List.mem_singleton.mp hr]
    show (1 : ℝ) ≠ 0
    norm_num
  exact ⟨h1, h2, fused_has_nonzero_component defaultSettings [denseA] [kwB] h1 h2⟩

/-! ### C7: weighted fusion is invariant to scaling the dense scores -/

/-- Folding `max` commutes with multiplication by a non-negative constant. -/
theorem foldl_max_mul (c : ℝ) (hc : 0 ≤ c) (x : ℝ) (xs : List ℝ) :
    ((xs.map fun y => c * y).foldl max (c * x)) = c * xs.foldl max x := by
  induction xs generalizing x with
  | nil => rfl
  | cons y ys ih =>
    simp only [List.map_cons, List.foldl_cons]
    rw [← (monotone_mul_left_of_nonneg hc).map_max]
    exact ih (max x y)

/-- Applying `pyMax` to a positively scaled non-empty list gives the scaled
maximum (whatever the defaults). -/
theorem pyMax_map_mul (c : ℝ) (hc : 0 < c) (xs : List ℝ) (d d' : ℝ) (hxs : xs ≠ []) :
    pyMax (xs.map fun y => c * y) d' = c * pyMax xs d := by
  cases xs with
  | nil => exact absurd rfl hxs
  | cons x rest =>
    unfold pyMax
    simp only [List.map_cons]
    exact foldl_max_mul c hc.le x rest

/-- The fused scores `_weighted_fusion` assigns, written out pointwise. -/
theorem weightedFusion_map_fused (dw kwW : ℝ) (L : List FusionResult) :
    (weightedFusion dw kwW L).map (fun r => r.fused_score) =
      L.map fun r =>
        dw * (if 0 < pyMax (L.map fun r => r.dense_score) 1 then
                r.dense_score / pyMax (L.map fun r => r.dense_score) 1 else 0) +
        kwW * (if 0 < pyMax (L.map fun r => r.keyword_score) 1 then
                r.keyword_score / pyMax (L.map fun r => r.keyword_score) 1 else 0) := by
  simp only [weightedFusion]
  rw [List.map_map]
  rfl

/-- C7: multiplying every dense component score by one positive constant `c`
leaves every fused score of weighted fusion unchanged, because each component
is normalised by its maximum over the merged set. -/
theorem weighted_fusion_scale_invariant (dw kwW c : ℝ) (hc : 0 < c)
    (all : List FusionResult) :
    (weightedFusion dw kwW (all.map fun r => { r with dense_score := c * r.dense_score })).map
        (fun r => r.fused_score) =
      (weightedFusion dw kwW all).map fun r => r.fused_score := by
  by_cases hall : all = []
  · subst hall; rfl
  · rw [weightedFusion_map_fused, weightedFusion_map_fused]
    have hkwmaps : ((all.map fun r => { r with dense_score := c * r.dense_score }).map
        fun r => r.keyword_score) = all.map fun r => r.keyword_score := by
      rw [List.map_map]; rfl
    have hdmaps : ((all.map fun r => { r with dense_score := c * r.dense_score }).map
        fun r => r.dense_score) = (all.map fun r => r.dense_score).map fun y => c * y := by
      rw [List.map_map, List.map_map]; rfl
    have hMd : pyMax ((all.map fun r => { r with dense_score := c * r.dense_score }).map
        fun r => r.dense_score) 1 = c * pyMax (all.map fun r => r.dense_score) 1 := by
      rw [hdmaps]
      exact pyMax_map_mul c hc _ 1 1 (by simpa using hall)
    rw [hkwmaps, hMd, List.map_map]
    apply List.map_congr_left
    intro r _
    show dw * (if 0 < c * pyMax (all.map fun r => r.dense_score) 1 then
            c * r.dense_score / (c * pyMax (all.map fun r => r.dense_score) 1) else 0) +
        kwW * (if 0 < pyMax (all.map fun r => r.keyword_score) 1 then
            r.keyword_score / pyMax (all.map fun r => r.keyword_score) 1 else 0) = _
    by_cases hM : 0 < pyMax (all.map fun r => r.dense_score) 1
    · rw [if_pos hM, if_pos (mul_pos hc hM), mul_div_mul_left _ _ (ne_of_gt hc)]
    · rw [if_neg hM, if_neg fun h => hM ((mul_pos_iff_of_pos_left hc).mp h)]

/-- Witness for C7: a two-entry merged set scaled by `c = 2`. -/
theorem weighted_fusion_scale_invariant_witness :
    (0 : ℝ) < 2 ∧
    (weightedFusion 0.7 0.3
        ([denseEntry denseA, keywordEntry kwB].map
          fun r => { r with dense_score := 2 * r.dense_score })).map
        (fun r => r.fused_score) =
      (weightedFusion 0.7 0.3 [denseEntry denseA, keywordEntry kwB]).map
        fun r => r.fused_score :=
  ⟨by norm_num, weighted_fusion_scale_invariant 0.7 0.3 2 (by norm_num)
    [denseEntry denseA, keywordEntry kwB]⟩

/-! ### C8: keyword search output order -/

/-- Rebuilding the vocabulary never changes the stored documents. -/
theorem buildVocab_documents (S : BM25State) : (buildVocab S).documents = S.documents := by
  unfold buildVocab
  by_cases h : S.documents.isEmpty
  · rw [if_pos h]
  · rw [if_neg h]

/-- The non-degenerate branch of `search`, written out. -/
theorem search_unfold (S : BM25State) (query : String) (top_k : ℕ)
    (hde : ((if S.vocab_built then S else buildVocab S).documents).isEmpty = false)
    (hqe : (tokenize query).isEmpty = false) :
    search S query top_k =
      ((pySortDesc (fun p => p.2.2)
          (scoredDocs (if S.vocab_built then S else buildVocab S) (tokenize query))).take
        top_k).map fun p => mkKeywordResult p.1 p.2.1 p.2.2 := by
  simp only [search, hde, hqe, Bool.false_eq_true, if_false]

/-- In a duplicate-free list every element sits strictly before every later
element, measured by `indexOf`. -/
theorem nodup_pairwise_indexOf {α : Type} [DecidableEq α] (l : List α) (h : l.Nodup) :
    l.Pairwise fun x y => l.indexOf x < l.indexOf y := by
  induction l with
  | nil => simp
  | cons a rest ih =>
    rw [List.nodup_cons] at h
    obtain ⟨ha, hrest⟩ := h
    rw [List.pairwise_cons]
    constructor
    · intro b hb
      have hba : b ≠ a := fun hba => ha (hba ▸ hb)
      rw [List.indexOf_cons_self, List.indexOf_cons_ne _ (Ne.symm hba)]
      exact Nat.succ_pos _
    · refine List.Pairwise.imp_of_mem ?_ (ih hrest)
      intro x y hx hy hxy
      have hxa : x ≠ a := fun h' => ha (h' ▸ hx)
      have hya : y ≠ a := fun h' => ha (h' ▸ hy)
      rw [List.indexOf_cons_ne _ (Ne.symm hxa), List.indexOf_cons_ne _ (Ne.symm hya)]
      exact Nat.succ_lt_succ hxy

/-- Scored documents inherit the insertion order of the corpus, measured as
`indexOf` into the key list. -/
theorem scoredDocs_pairwise_indexOf (S : BM25State) (qts : List String)
    (keys : List String) (hnd : keys.Nodup) (hkeys : S.documents.map Prod.fst = keys) :
    (scoredDocs S qts).Pairwise fun p q => keys.indexOf p.1 < keys.indexOf q.1 := by
  unfold scoredDocs
  rw [List.pairwise_filterMap]
  have hdocs : S.documents.Pairwise fun p q => keys.indexOf p.1 < keys.indexOf q.1 := by
    have h2 : List.Pairwise (fun x y => keys.indexOf x < keys.indexOf y)
        (S.documents.map Prod.fst) := by
      rw [hkeys]
      exact nodup_pairwise_indexOf keys hnd
    exact (@List.pairwise_map _ _ Prod.fst
      (fun x y => keys.indexOf x < keys.indexOf y) S.documents).mp h2
  refine hdocs.imp_of_mem ?_
  intro p q _ _ hpq b hb b' hb'
  have hb1 : b.1 = p.1 := by
    by_cases h : 0 < bm25Score S qts p.2
    · rw [if_pos h] at hb
      rw [← Option.some.inj hb]
    · rw [if_neg h] at hb
      exact absurd hb (by simp)
  have hb'1 : b'.1 = q.1 := by
    by_cases h : 0 < bm25Score S qts q.2
    · rw [if_pos h] at hb'
      rw [← Option.some.inj hb']
    · rw [if_neg h] at hb'
      exact absurd hb' (by simp)
  rw [hb1, hb'1]
  exact hpq

/-- C8: for a non-empty query token list and a non-empty corpus, the keyword
search output is sorted by non-increasing BM25 score, equal scores keep the
corpus insertion order (the sort is stable), and the output holds at most
`top_k` results. -/
theorem keyword_search_sorted_stable_truncated (S : BM25State) (query : String) (top_k : ℕ)
    (hnd : (S.documents.map Prod.fst).Nodup)
    (hq : tokenize query ≠ []) (hdocs : S.documents ≠ []) :
    ((search S query top_k).map fun r => r.score).Sorted (fun a b => b ≤ a) ∧
    (search S query top_k).length ≤ top_k ∧
    ∀ i j (hi : i < (search S query top_k).length) (hj : j < (search S query top_k).length),
      i < j →
      ((search S query top_k).get ⟨i, hi⟩).score = ((search S query top_k).get ⟨j, hj⟩).score →
      (S.documents.map Prod.fst).indexOf ((search S query top_k).get ⟨i, hi⟩).chunk_id <
        (S.documents.map Prod.fst).indexOf ((search S query top_k).get ⟨j, hj⟩).chunk_id := by
  have hdocs' : (if S.vocab_built then S else buildVocab S).documents = S.documents := by
    by_cases h : S.vocab_built
    · rw [if_pos h]
    · rw [if_neg h, buildVocab_documents]
  have hde : ((if S.vocab_built then S else buildVocab S).documents).isEmpty = false := by
    rw [hdocs']
    cases hcase : S.documents with
    | nil => exact absurd hcase hdocs
    | cons a l => rfl
  have hqe : (tokenize query).isEmpty = false := by
    cases hcase : tokenize query with
    | nil => exact absurd hcase hq
    | cons a l => rfl
  have hsearch := search_unfold S query top_k hde hqe
  have hRpos : (scoredDocs (if S.vocab_built then S else buildVocab S) (tokenize query)).Pairwise
      fun p q => (S.documents.map Prod.fst).indexOf p.1 <
        (S.documents.map Prod.fst).indexOf q.1 := by
    refine scoredDocs_pairwise_indexOf _ _ _ hnd ?_
    rw [hdocs']
  have hsort := pySortDesc_pairwise (fun p : String × DocEntry × ℝ => p.2.2)
    (fun p q => (S.documents.map Prod.fst).indexOf p.1 <
      (S.documents.map Prod.fst).indexOf q.1) _ hRpos
  rw [hsearch]
  set T := (pySortDesc (fun p : String × DocEntry × ℝ => p.2.2)
      (scoredDocs (if S.vocab_built then S else buildVocab S) (tokenize query))).take top_k
    with hT
  have htake : T.Pairwise fun x y =>
      y.2.2 < x.2.2 ∨ (y.2.2 = x.2.2 ∧
        (S.documents.map Prod.fst).indexOf x.1 < (S.documents.map Prod.fst).indexOf y.1) := by
    rw [hT]
    exact List.Pairwise.sublist (List.take_sublist _ _) hsort
  refine ⟨?_, ?_, ?_⟩
  · rw [List.map_map]
    refine List.pairwise_map.mpr (htake.imp ?_)
    rintro p q (h | ⟨h, -⟩)
    · exact le_of_lt h
    · exact le_of_eq h
  · rw [List.length_map, hT, List.length_take]
    exact min_le_left _ _
  · intro i j hi hj hij heq
    have hi' : i < T.length := by simpa using hi
    have hj' : j < T.length := by simpa using hj
    have hgi : (T.map fun p => mkKeywordResult p.1 p.2.1 p.2.2).get ⟨i, hi⟩ =
        mkKeywordResult (T.get ⟨i, hi'⟩).1 (T.get ⟨i, hi'⟩).2.1 (T.get ⟨i, hi'⟩).2.2 := by
      simp [List.get_eq_getElem, List.getElem_map]
    have hgj : (T.map fun p => mkKeywordResult p.1 p.2.1 p.2.2).get ⟨j, hj⟩ =
        mkKeywordResult (T.get ⟨j, hj'⟩).1 (T.get ⟨j, hj'⟩).2.1 (T.get ⟨j, hj'⟩).2.2 := by
      simp [List.get_eq_getElem, List.getElem_map]
    have hpair := List.pairwise_iff_get.mp htake ⟨i, hi'⟩ ⟨j, hj'⟩ hij
    rw [hgi, hgj] at heq ⊢
    rcases hpair with hlt | ⟨-, hidx⟩
    · exfalso
      have hscore : (T.get ⟨i, hi'⟩).2.2 = (T.get ⟨j, hj'⟩).2.2 := heq
      rw [hscore] at hlt
      exact lt_irrefl _ hlt
    · exact hidx

/-- Witness for C8 at a concrete one-document index (text "dogs only") and the
query "cats": the hypotheses hold and the theorem applies. -/
theorem keyword_search_sorted_stable_truncated_witness :
    (wState.documents.map Prod.fst).Nodup ∧ tokenize "cats" ≠ [] ∧ wState.documents ≠ [] ∧
    (((search wState "cats" 10).map fun r => r.score).Sorted (fun a b => b ≤ a) ∧
      (search wState "cats" 10).length ≤ 10 ∧
      ∀ i j (hi : i < (search wState "cats" 10).length)
        (hj : j < (search wState "cats" 10).length),
        i < j →
        ((search wState "cats" 10).get ⟨i, hi⟩).score =
          ((search wState "cats" 10).get ⟨j, hj⟩).score →
        (wState.documents.map Prod.fst).indexOf
            ((search wState "cats" 10).get ⟨i, hi⟩).chunk_id <
          (wState.documents.map Prod.fst).indexOf
            ((search wState "cats" 10).get ⟨j, hj⟩).chunk_id) :=
  ⟨by decide, by decide, by decide,
    keyword_search_sorted_stable_truncated wState "cats" 10 (by decide) (by decide) (by decide)⟩

/-! ### C10: the tokenizer recognises only ASCII alphanumeric runs -/

/-- A character that is not ASCII alphanumeric and is neither U+212A nor
U+0130 lowercases to itself: the ASCII case mapping only moves `A`–`Z`
(which are alphanumeric), and the two named code points are the only others
whose lowercase image reaches the ASCII alphanumerics. -/
theorem pyLower_eq_self (c : Char) (h : isAsciiAlnum c = false)
    (h2 : c ≠ 'K') (h3 : c ≠ 'İ') : pyLower c = [c] := by
  unfold pyLower
  rw [if_neg, if_neg h2, if_neg h3]
  rintro ⟨ha, hz⟩
  unfold isAsciiAlnum at h
  simp only [Bool.or_eq_false_iff, Bool.and_eq_false_iff, decide_eq_false_iff_not] at h
  rcases h with ⟨⟨-, hAZ⟩, -⟩
  rcases hAZ with hA | hZ
  · exact hA ha
  · exact hZ hz

/-- With every character non-alphanumeric, no run ever starts, whatever the
pending boundary flag. -/
theorem tokenizeAux_nil_of_no_alnum (cs : List Char)
    (h : ∀ c ∈ cs, isAsciiAlnum c = false) :
    ∀ leftOk, tokenizeAux leftOk [] cs = [] := by
  induction cs with
  | nil => intro leftOk; simp [tokenizeAux]
  | cons c rest ih =>
    intro leftOk
    have hc := h c (List.mem_cons_self c rest)
    unfold tokenizeAux
    simp [hc, ih fun c' hc' => h c' (List.mem_cons_of_mem c hc')]

/-- Tokenization of a string is empty when no character's lowercase image
contains an ASCII alphanumeric. -/
theorem tokenize_nil_of_no_ascii (s : String)
    (h : ∀ c ∈ s.data, ∀ c' ∈ pyLower c, isAsciiAlnum c' = false) :
    tokenize s = [] := by
  unfold tokenize
  have hflat : ∀ c ∈ s.data.flatMap pyLower, isAsciiAlnum c = false := by
    intro c hc
    obtain ⟨c0, hc0, hcc⟩ := List.mem_flatMap.mp hc
    exact h c0 hc0 c hcc
  rw [tokenizeAux_nil_of_no_alnum _ hflat true]
  rfl

/-- A query that tokenizes to nothing returns no results, whatever the state. -/
theorem search_empty_query (S : BM25State) (query : String) (top_k : ℕ)
    (hq : tokenize query = []) : search S query top_k = [] := by
  simp only [search, hq, List.isEmpty_nil, if_true]
  by_cases hd : ((if S.vocab_built then S else buildVocab S).documents).isEmpty = true
  · rw [if_pos hd]
  · rw [if_neg hd]

/-- Looking up the key just upserted returns the new value. -/
theorem lookupA_upsert_self {α β : Type} [DecidableEq α] (k : α) (v : β) (m : List (α × β)) :
    lookupA k (upsert k v m) = some v := by
  induction m with
  | nil => simp [upsert, lookupA]
  | cons p rest ih =>
    unfold upsert
    by_cases h : p.1 = k
    · rw [if_pos h]
      unfold lookupA
      rw [if_pos rfl]
    · rw [if_neg h]
      unfold lookupA
      rw [if_neg h]
      exact ih

/-- A fold that ignores its elements returns its accumulator. -/
theorem foldl_const {α β : Type} (l : List α) (acc : β) :
    l.foldl (fun a _ => a) acc = acc := by
  induction l generalizing acc with
  | nil => rfl
  | cons x xs ih => exact ih acc

/-- A document with an empty term-frequency table scores zero on every query. -/
theorem bm25Score_empty_tf (S : BM25State) (qts : List String) (doc : DocEntry)
    (h : doc.term_freq = []) : bm25Score S qts doc = 0 := by
  unfold bm25Score
  rw [h]
  exact foldl_const qts 0

/-- Distinct keys determine the stored value uniquely. -/
theorem mem_unique_of_nodup_keys {α β : Type} [DecidableEq α] (m : List (α × β))
    (h : (m.map Prod.fst).Nodup) (k : α) (v1 v2 : β)
    (h1 : (k, v1) ∈ m) (h2 : (k, v2) ∈ m) : v1 = v2 := by
  induction m with
  | nil => simp at h1
  | cons p rest ih =>
    rw [List.map_cons, List.nodup_cons] at h
    obtain ⟨hk, hrest⟩ := h
    obtain ⟨pk, pv⟩ := p
    rcases List.mem_cons.mp h1 with heq1 | h1'
    · have hk1 : k = pk := congrArg Prod.fst heq1
      have hv1 : v1 = pv := congrArg Prod.snd heq1
      rcases List.mem_cons.mp h2 with heq2 | h2'
      · have hv2 : v2 = pv := congrArg Prod.snd heq2
        rw [hv1, hv2]
      · exfalso
        have : k ∈ rest.map Prod.fst := by
          have := List.mem_map_of_mem Prod.fst h2'
          simpa using this
        rw [hk1] at this
        exact hk this
    · rcases List.mem_cons.mp h2 with heq2 | h2'
      · exfalso
        have hk2 : k = pk := congrArg Prod.fst heq2
        have : k ∈ rest.map Prod.fst := by
          have := List.mem_map_of_mem Prod.fst h1'
          simpa using this
        rw [hk2] at this
        exact hk this
      · exact ih hrest h1' h2'

/-- Elements of the scored list come from the corpus with a positive score. -/
theorem mem_scoredDocs (S : BM25State) (qts : List String) (p : String × DocEntry × ℝ)
    (hp : p ∈ scoredDocs S qts) :
    ∃ pd ∈ S.documents, p = (pd.1, pd.2, bm25Score S qts pd.2) ∧
      0 < bm25Score S qts pd.2 := by
  unfold scoredDocs at hp
  obtain ⟨pd, hpd, hf⟩ := List.mem_filterMap.mp hp
  by_cases h : 0 < bm25Score S qts pd.2
  · rw [if_pos h] at hf
    exact ⟨pd, hpd, (Option.some.inj hf).symm, h⟩
  · rw [if_neg h] at hf
    exact absurd hf (by simp)

/-- C10 amended: the tokenizer recognises only ASCII alphanumeric runs *of the
lowercased text*.  A string in which no character's lowercase image contains
an ASCII letter or digit — which excludes the ASCII alphanumerics themselves
and the two code points U+212A and U+0130 that lowercase into ASCII, and
covers e.g. text written entirely in a non-Latin script — tokenizes to the
empty list; a query made of such a string returns the empty result list; a
document with such text is stored with empty token and term-frequency tables;
and a stored document whose term-frequency table is empty never appears in
any search result. -/
theorem tokenizer_ascii_only (s : String)
    (hs : ∀ c ∈ s.data, ∀ c' ∈ pyLower c, isAsciiAlnum c' = false) :
    tokenize s = [] ∧
    (∀ (S : BM25State) (top_k : ℕ), search S s top_k = []) ∧
    (∀ (S : BM25State) (cid : String) (meta : Metadata),
      lookupA cid (addDocument S cid s meta).documents = some ⟨s, [], [], 0, meta⟩) ∧
    ∀ (S : BM25State) (cid : String) (d : DocEntry),
      (S.documents.map Prod.fst).Nodup → (cid, d) ∈ S.documents → d.term_freq = [] →
      ∀ (q : String) (top_k : ℕ) (r : KeywordResult),
        r ∈ search S q top_k → r.chunk_id ≠ cid := by
  have ht : tokenize s = [] := tokenize_nil_of_no_ascii s hs
  refine ⟨ht, fun S top_k => search_empty_query S s top_k ht, ?_, ?_⟩
  · intro S cid meta
    have h1 : addDocument S cid s meta =
        { S with
          documents := upsert cid ⟨s, [], [], 0, meta⟩ S.documents
          term_doc_freq := S.term_doc_freq
          vocab_built := false } := by
      simp only [addDocument, ht]
      rfl
    rw [h1]
    exact lookupA_upsert_self cid _ S.documents
  · intro S cid d hnd hd htf q top_k r hr hchunk
    by_cases hde : ((if S.vocab_built then S else buildVocab S).documents).isEmpty = true
    · rw [show search S q top_k = [] by simp only [search, hde, if_true]] at hr
      simp at hr
    · by_cases hqe : (tokenize q).isEmpty = true
      · have hq0 : tokenize q = [] := by
          cases hcase : tokenize q with
          | nil => rfl
          | cons a l => rw [hcase] at hqe; simp at hqe
        rw [search_empty_query S q top_k hq0] at hr
        simp at hr
      · have hde' : ((if S.vocab_built then S else buildVocab S).documents).isEmpty = false := by
          simpa using hde
        have hqe' : (tokenize q).isEmpty = false := by
          simpa using hqe
        rw [search_unfold S q top_k hde' hqe'] at hr
        obtain ⟨p, hp, rfl⟩ := List.mem_map.mp hr
        have hp2 : p ∈ pySortDesc (fun p : String × DocEntry × ℝ => p.2.2)
            (scoredDocs (if S.vocab_built then S else buildVocab S) (tokenize q)) :=
          (List.take_sublist _ _).subset hp
        have hp3 := (pySortDesc_perm (fun p : String × DocEntry × ℝ => p.2.2) _).mem_iff.mp hp2
        obtain ⟨pd, hpd, hpe, hpos⟩ :=
          mem_scoredDocs (if S.vocab_built then S else buildVocab S) (tokenize q) p hp3
        have hdocs' : (if S.vocab_built then S else buildVocab S).documents = S.documents := by
          by_cases h : S.vocab_built
          · rw [if_pos h]
          · rw [if_neg h, buildVocab_documents]
        rw [hdocs'] at hpd
        have hcid : pd.1 = cid := by
          have : (mkKeywordResult p.1 p.2.1 p.2.2).chunk_id = p.1 := rfl
          rw [this] at hchunk
          rw [hpe] at hchunk
          exact hchunk
        have hsame : pd.2 = d := by



          refine mem_unique_of_nodup_keys S.documents hnd cid pd.2 d ?_ hd
          rw [← hcid]
          exact hpd
        rw [hsame] at hpos
        rw [bm25Score_empty_tf _ _ _ htf] at hpos
        exact lt_irrefl 0 hpos

/-- Counterexample to C10 as stated: the Kelvin sign U+212A contains no ASCII
letter or digit, yet `str.lower()` maps it to the ASCII letter `k`, so the
tokenizer returns `["k"]` rather than the empty list, and a document with that
text is stored with the non-empty term-frequency table `{"k": 1}`. -/
theorem tokenizer_ascii_only_cex :
    (∀ c ∈ ("\u212A" : String).data, isAsciiAlnum c = false) ∧
    tokenize "\u212A" = ["k"] ∧
    lookupA "c1" (addDocument emptyBM25 "c1" "\u212A" mdA).documents =
      some ⟨"\u212A", ["k"], [("k", 1)], 1, mdA⟩ :=
  ⟨by decide, by decide, rfl⟩

/-- Witness for C10 (amended) on a string of arrow and box-drawing characters:
none of them is ASCII alphanumeric or lowercases into the ASCII
alphanumerics. -/
theorem tokenizer_ascii_only_witness :
    (∀ c ∈ ("→──←" : String).data, ∀ c' ∈ pyLower c, isAsciiAlnum c' = false) ∧
    tokenize "→──←" = [] ∧
    search wState "→──←" 10 = [] :=
  ⟨by decide, (tokenizer_ascii_only "→──←" (by decide)).1,
    (tokenizer_ascii_only "→──←" (by decide)).2.1 wState 10⟩

end RS
